import Mathlib

/-!
Verification development for the ROAFetchlib configuration subsystem
(`src/lib/rpki_config.h`): spec parsing, time indexing and timestamp
resolution, ROA import and prefix-table construction.

The repository ships only the interface header; the behaviour of each
operation is modelled here from the specification, faithful to its words.
Machine integers (`uint32_t` timestamps and ASNs, `uint8_t` lengths) are
modelled as `Nat`; the C functions never perform overflowing arithmetic on
them, they only compare and store, so no modular reduction is needed.
C strings are modelled as `List Char`.
-/

/-- Error taxonomy of the configuration subsystem (spec section 7). -/
inductive CfgError where
  | CapacityExceeded
  | MalformedSpec
  | InvalidInterval
  | OutOfRange
  | InvalidAddress
  | InvalidLength
  | ExternalFailure
  | Misuse
deriving DecidableEq, Repr

/-- Split a character list on a separator character; `n` separators yield
`n + 1` (possibly empty) pieces, mirroring delimiter-splitting of a C
string. -/
def splitOnChar (sep : Char) : List Char → List (List Char)
  | [] => [[]]
  | c :: cs =>
    let r := splitOnChar sep cs
    if c = sep then
      [] :: r
    else
      match r with
      | [] => [[c]]
      | p :: ps => (c :: p) :: ps

/-- Join pieces with a separator character (serialization direction). -/
def joinWithChar (sep : Char) : List (List Char) → List Char
  | [] => []
  | [p] => p
  | p :: ps => p ++ sep :: joinWithChar sep ps

theorem splitOnChar_ne_nil (sep : Char) (s : List Char) : splitOnChar sep s ≠ [] := by
  induction s with
  | nil => simp [splitOnChar]
  | cons c cs ih =>
    simp only [splitOnChar]
    split
    · simp
    · cases h : splitOnChar sep cs with
      | nil => simp
      | cons p ps => simp [h]

theorem splitOnChar_sepFree {sep : Char} {p : List Char}
    (hp : sep ∉ p) : splitOnChar sep p = [p] := by
  induction p with
  | nil => rfl
  | cons c cs ih =>
    simp only [List.mem_cons, not_or] at hp
    simp only [splitOnChar]
    rw [if_neg (fun h => hp.1 h.symm), ih hp.2]

theorem splitOnChar_append_sep {sep : Char} (rest : List Char) {p : List Char}
    (hp : sep ∉ p) : splitOnChar sep (p ++ sep :: rest) = p :: splitOnChar sep rest := by
  induction p with
  | nil =>
    show splitOnChar sep (sep :: rest) = [] :: splitOnChar sep rest
    simp [splitOnChar]
  | cons c cs ih =>
    simp only [List.mem_cons, not_or] at hp
    show splitOnChar sep (c :: (cs ++ sep :: rest)) = (c :: cs) :: splitOnChar sep rest
    simp only [splitOnChar]
    rw [if_neg (fun h => hp.1 h.symm), ih hp.2]

/-- Round trip: joining nonempty, separator-free pieces and re-splitting
recovers exactly the pieces. -/
theorem splitOnChar_joinWithChar {sep : Char} {l : List (List Char)}
    (hne : l ≠ []) (hfree : ∀ p ∈ l, sep ∉ p) :
    splitOnChar sep (joinWithChar sep l) = l := by
  induction l with
  | nil => exact absurd rfl hne
  | cons p ps ih =>
    cases ps with
    | nil =>
      simp only [joinWithChar]
      exact splitOnChar_sepFree (hfree p (List.mem_cons_self p []))
    | cons q qs =>
      have hstep : joinWithChar sep (p :: q :: qs) = p ++ sep :: joinWithChar sep (q :: qs) := rfl
      rw [hstep, splitOnChar_append_sep _ (hfree p (List.mem_cons_self p _))]
      rw [ih (by simp) (fun x hx => hfree x (List.mem_cons_of_mem p hx))]

/-- Parse a nonempty all-digit token as a natural number (decimal). -/
def digitsToNat? (t : List Char) : Option Nat :=
  if t.isEmpty then none
  else if t.all Char.isDigit then some (t.foldl (fun a c => a * 10 + (c.toNat - 48)) 0)
  else none

/-! ## Time Index and Timestamp Resolver (spec section 4.2) -/

/-- Per-resolution time state of the configuration (`config_time_t`). -/
structure config_time_t where
  current_roa_timestamp : Nat
  next_roa_timestamp : Nat
  start : Nat
  max_end : Nat
  current_gap : Bool
deriving DecidableEq, Repr

/-- Modelled from the spec: the Time Index ("a mapping from available
snapshot timestamp to its source URL(s), built from broker responses") and
the resolution state; the implementation (`rpki_config.c`, `broker.c`) is
not in the repository. The broker hash is modelled as an association list
from timestamp to URL string, and the staleness window of spec section 9
("flag as a configuration parameter") as an explicit field. -/
structure rpki_cfg_t where
  broker_khash : List (Nat × List Char)
  cfg_time : config_time_t
  roa_staleness : Nat
deriving DecidableEq, Repr

/-- Timestamps indexed by the broker hash. -/
def keysOf (idx : List (Nat × List Char)) : List Nat :=
  idx.map Prod.fst

/-- Greatest indexed timestamp not exceeding the query (`t_c`). -/
def findCurrent (idx : List (Nat × List Char)) (q : Nat) : Option Nat :=
  ((keysOf idx).filter (fun k => decide (k ≤ q))).max?

/-- Smallest indexed timestamp strictly greater than `t` (`t_n`). -/
def findNext (idx : List (Nat × List Char)) (t : Nat) : Option Nat :=
  ((keysOf idx).filter (fun k => decide (t < k))).min?

/-- URL(s) stored in the index for a timestamp. -/
def urlsOf : List (Nat × List Char) → Nat → List Char
  | [], _ => []
  | (k, u) :: rest, t => if k = t then u else urlsOf rest t

/-- Modelled from the spec: a query timestamp lies in a coverage gap when no
indexed snapshot lies at or before it, or the most recent one is older than
the allowed staleness window. -/
def inGap (cfg : rpki_cfg_t) (q : Nat) : Bool :=
  match findCurrent cfg.broker_khash q with
  | none => true
  | some tc => decide (cfg.roa_staleness < q - tc)

/-- Modelled from the spec: `cfg_get_timestamps` (declared in
`rpki_config.h` lines 192-201; its definition is not in the repository).
Resolution algorithm of spec section 4.2: a query beyond `max_end` is a hard
`OutOfRange` error; otherwise find the greatest indexed `t_c ≤ timestamp`;
if none exists or it is staler than the allowed window, report a gap with
`current_roa_timestamp = 0`; otherwise report `t_c`, the smallest indexed
timestamp above it, and the URL(s) of `t_c` in the `dest` buffer. -/
def cfg_get_timestamps (cfg : rpki_cfg_t) (timestamp : Nat) :
    Except CfgError (config_time_t × List Char) :=
  if cfg.cfg_time.max_end < timestamp then
    .error .OutOfRange
  else if inGap cfg timestamp then
    .ok ({ cfg.cfg_time with
           current_roa_timestamp := 0
           next_roa_timestamp := 0
           current_gap := true }, [])
  else
    .ok ({ cfg.cfg_time with
           current_roa_timestamp := (findCurrent cfg.broker_khash timestamp).getD 0
           next_roa_timestamp :=
             (findNext cfg.broker_khash
               ((findCurrent cfg.broker_khash timestamp).getD 0)).getD 0
           current_gap := false },
         urlsOf cfg.broker_khash ((findCurrent cfg.broker_khash timestamp).getD 0))

/-- Modelled from the spec: `cfg_next_timestamp` (declared in
`rpki_config.h` lines 203-209; definition not in the repository): "the
smallest indexed timestamp strictly greater than `currentTs`, or `0` if
`currentTs` is the last available snapshot". -/
def cfg_next_timestamp (cfg : rpki_cfg_t) (current_ts : Nat) : Nat :=
  (findNext cfg.broker_khash current_ts).getD 0

/-- Historical iteration driven by `cfg_next_timestamp`, with explicit fuel;
stops at the `0` sentinel. -/
def cfg_ts_iter (cfg : rpki_cfg_t) : Nat → Nat → List Nat
  | 0, _ => []
  | fuel + 1, ts =>
    if ts = 0 then []
    else ts :: cfg_ts_iter cfg fuel (cfg_next_timestamp cfg ts)

/-- First element of a timestamp list, or the `0` sentinel. -/
def headOrZero : List Nat → Nat
  | [] => 0
  | a :: _ => a

/-! ## Resolver helper lemmas -/

theorem mem_urlsOf {idx : List (Nat × List Char)} {t : Nat}
    (h : t ∈ keysOf idx) : (t, urlsOf idx t) ∈ idx := by
  induction idx with
  | nil => simp [keysOf] at h
  | cons e rest ih =>
    obtain ⟨k, u⟩ := e
    by_cases hk : k = t
    · subst hk
      simp [urlsOf]
    · have ht : t ∈ keysOf rest := by
        simp only [keysOf, List.map_cons, List.mem_cons] at h
        rcases h with h | h
        · exact absurd h.symm hk
        · exact h
      simp only [urlsOf, if_neg hk]
      exact List.mem_cons_of_mem _ (ih ht)

theorem findCurrent_le {idx : List (Nat × List Char)} {q tc : Nat}
    (h : findCurrent idx q = some tc) :
    tc ∈ keysOf idx ∧ tc ≤ q ∧ ∀ b ∈ keysOf idx, b ≤ q → b ≤ tc := by
  rw [findCurrent, List.max?_eq_some_iff'] at h
  obtain ⟨hmem, hmax⟩ := h
  simp only [List.mem_filter, decide_eq_true_eq] at hmem hmax
  exact ⟨hmem.1, hmem.2, fun b hb hbq => hmax b ⟨hb, hbq⟩⟩

theorem findNext_of_mem {idx : List (Nat × List Char)} {t b : Nat}
    (hb : b ∈ keysOf idx) (htb : t < b) :
    ∃ tn, findNext idx t = some tn ∧ tn ∈ keysOf idx ∧ t < tn ∧
      ∀ u ∈ keysOf idx, t < u → tn ≤ u := by
  have hmemF : b ∈ (keysOf idx).filter (fun k => decide (t < k)) := by
    simp only [List.mem_filter, decide_eq_true_eq]
    exact ⟨hb, htb⟩
  obtain ⟨tn, htn⟩ := Option.isSome_iff_exists.mp (List.isSome_min?_of_mem hmemF)
  rw [List.min?_eq_some_iff'] at htn
  obtain ⟨hmem, hmin⟩ := htn
  simp only [List.mem_filter, decide_eq_true_eq] at hmem hmin
  refine ⟨tn, ?_, hmem.1, hmem.2, fun u hu htu => hmin u ⟨hu, htu⟩⟩
  rw [findNext, List.min?_eq_some_iff']
  simp only [List.mem_filter, decide_eq_true_eq]
  exact ⟨hmem, fun b hb => hmin b (by simpa using hb)⟩

/-- C1: for every query timestamp strictly between two indexed snapshot
timestamps that does not fall in a coverage gap, `cfg_get_timestamps`
succeeds and brackets the query: `current_roa_timestamp ≤ t <
next_roa_timestamp` with `current_gap = false`. -/
theorem cfg_get_timestamps_brackets_query (cfg : rpki_cfg_t) (t ts1 ts2 : Nat)
    (hmax : ∀ k ∈ keysOf cfg.broker_khash, k ≤ cfg.cfg_time.max_end)
    (hts1 : ts1 ∈ keysOf cfg.broker_khash) (h1 : ts1 < t)
    (hts2 : ts2 ∈ keysOf cfg.broker_khash) (h2 : t < ts2)
    (hgap : inGap cfg t = false) :
    ∃ ct urls, cfg_get_timestamps cfg t = .ok (ct, urls) ∧
      ct.current_roa_timestamp ≤ t ∧ t < ct.next_roa_timestamp ∧
      ct.current_gap = false := by
  have hnl : ¬ cfg.cfg_time.max_end < t :=
    Nat.not_lt.mpr (Nat.le_of_lt (Nat.lt_of_lt_of_le h2 (hmax ts2 hts2)))
  have hgap' : ¬ inGap cfg t = true := by
    rw [hgap]
    exact Bool.false_ne_true
  obtain ⟨tc, hfc⟩ : ∃ tc, findCurrent cfg.broker_khash t = some tc := by
    rw [inGap] at hgap
    cases hfc : findCurrent cfg.broker_khash t with
    | none => rw [hfc] at hgap; cases hgap
    | some tc => exact ⟨tc, rfl⟩
  have hgd : (findCurrent cfg.broker_khash t).getD 0 = tc := by rw [hfc]; rfl
  obtain ⟨htck, htct, htcmax⟩ := findCurrent_le hfc
  obtain ⟨tn, hfn, htnk, htctn, htnmin⟩ :=
    findNext_of_mem hts2 (Nat.lt_of_le_of_lt htct h2)
  have httn : t < tn := by
    by_contra hc
    exact Nat.not_lt.mpr (htcmax tn htnk (Nat.not_lt.mp hc)) htctn
  refine ⟨{ cfg.cfg_time with
            current_roa_timestamp := (findCurrent cfg.broker_khash t).getD 0
            next_roa_timestamp :=
              (findNext cfg.broker_khash
                ((findCurrent cfg.broker_khash t).getD 0)).getD 0
            current_gap := false },
          urlsOf cfg.broker_khash ((findCurrent cfg.broker_khash t).getD 0),
          ?_, ?_, ?_, rfl⟩
  · rw [cfg_get_timestamps, if_neg hnl, if_neg hgap']
  · show (findCurrent cfg.broker_khash t).getD 0 ≤ t
    rw [hgd]
    exact htct
  · show t <
      (findNext cfg.broker_khash ((findCurrent cfg.broker_khash t).getD 0)).getD 0
    rw [hgd, hfn]
    exact httn

/-- C3: `cfg_get_timestamps` distinguishes its two failure shapes: a query
beyond `max_end` is a hard `OutOfRange` error, while a query in an
unindexed coverage gap yields a non-fatal success with `current_gap = true`
and `current_roa_timestamp = 0`. -/
theorem cfg_get_timestamps_error_shapes (cfg : rpki_cfg_t) (q : Nat) :
    (cfg.cfg_time.max_end < q →
      cfg_get_timestamps cfg q = .error .OutOfRange) ∧
    (q ≤ cfg.cfg_time.max_end → inGap cfg q = true →
      ∃ ct urls, cfg_get_timestamps cfg q = .ok (ct, urls) ∧
        ct.current_gap = true ∧ ct.current_roa_timestamp = 0) := by
  constructor
  · intro h
    rw [cfg_get_timestamps, if_pos h]
  · intro hle hgap
    have hnl : ¬ cfg.cfg_time.max_end < q := Nat.not_lt.mpr hle
    refine ⟨{ cfg.cfg_time with
              current_roa_timestamp := 0
              next_roa_timestamp := 0
              current_gap := true }, [], ?_, rfl, rfl⟩
    rw [cfg_get_timestamps, if_neg hnl, if_pos hgap]

/-- C10: on every successful, gap-free call, `cfg_get_timestamps` also
writes into the `dest` buffer the URL(s) that the time index associates
with the resolved current timestamp. -/
theorem cfg_get_timestamps_writes_urls (cfg : rpki_cfg_t) (q : Nat)
    (ct : config_time_t) (urls : List Char)
    (hok : cfg_get_timestamps cfg q = .ok (ct, urls))
    (hng : ct.current_gap = false) :
    ∃ e ∈ cfg.broker_khash, e.1 = ct.current_roa_timestamp ∧ e.2 = urls := by
  by_cases hq : cfg.cfg_time.max_end < q
  · rw [cfg_get_timestamps, if_pos hq] at hok
    cases hok
  · by_cases hgap : inGap cfg q = true
    · have heq : cfg_get_timestamps cfg q =
          .ok ({ cfg.cfg_time with
                 current_roa_timestamp := 0
                 next_roa_timestamp := 0
                 current_gap := true }, []) := by
        rw [cfg_get_timestamps, if_neg hq, if_pos hgap]
      rw [heq] at hok
      simp only [Except.ok.injEq, Prod.mk.injEq] at hok
      rw [← hok.1] at hng
      cases hng
    · have heq : cfg_get_timestamps cfg q =
          .ok ({ cfg.cfg_time with
                 current_roa_timestamp := (findCurrent cfg.broker_khash q).getD 0
                 next_roa_timestamp :=
                   (findNext cfg.broker_khash
                     ((findCurrent cfg.broker_khash q).getD 0)).getD 0
                 current_gap := false },
               urlsOf cfg.broker_khash ((findCurrent cfg.broker_khash q).getD 0)) := by
        rw [cfg_get_timestamps, if_neg hq, if_neg hgap]
      rw [heq] at hok
      simp only [Except.ok.injEq, Prod.mk.injEq] at hok
      obtain ⟨hct, hurls⟩ := hok
      obtain ⟨tc, hfc⟩ : ∃ tc, findCurrent cfg.broker_khash q = some tc := by
        have hg : inGap cfg q = false := by simpa using hgap
        rw [inGap] at hg
        cases hfc : findCurrent cfg.broker_khash q with
        | none => rw [hfc] at hg; cases hg
        | some tc => exact ⟨tc, rfl⟩
      have hgd : (findCurrent cfg.broker_khash q).getD 0 = tc := by rw [hfc]; rfl
      have htck : tc ∈ keysOf cfg.broker_khash := (findCurrent_le hfc).1
      refine ⟨(tc, urlsOf cfg.broker_khash tc), mem_urlsOf htck, ?_, ?_⟩
      · rw [← hct]
        show tc = (findCurrent cfg.broker_khash q).getD 0
        rw [hgd]
      · rw [← hurls]
        show urlsOf cfg.broker_khash tc =
          urlsOf cfg.broker_khash ((findCurrent cfg.broker_khash q).getD 0)
        rw [hgd]

/-- Concrete configuration used by the witnesses: three indexed snapshots
at 100, 200, 300 with URLs a, b, c; coverage bounds 100-400. -/
def cfgEx : rpki_cfg_t :=
  { broker_khash := [(100, ['a']), (200, ['b']), (300, ['c'])]
    cfg_time :=
      { current_roa_timestamp := 0
        next_roa_timestamp := 0
        start := 100
        max_end := 400
        current_gap := false }
    roa_staleness := 1000 }

/-- Witness for C1 at the concrete configuration `cfgEx` and query 150. -/
theorem cfg_get_timestamps_brackets_query_witness :
    ((∀ k ∈ keysOf cfgEx.broker_khash, k ≤ cfgEx.cfg_time.max_end) ∧
      100 ∈ keysOf cfgEx.broker_khash ∧ 100 < 150 ∧
      200 ∈ keysOf cfgEx.broker_khash ∧ 150 < 200 ∧
      inGap cfgEx 150 = false) ∧
    (∃ ct urls, cfg_get_timestamps cfgEx 150 = .ok (ct, urls) ∧
      ct.current_roa_timestamp ≤ 150 ∧ 150 < ct.next_roa_timestamp ∧
      ct.current_gap = false) :=
  ⟨⟨by decide, by decide, by decide, by decide, by decide, by decide⟩,
    cfg_get_timestamps_brackets_query cfgEx 150 100 200 (by decide) (by decide)
      (by decide) (by decide) (by decide) (by decide)⟩

/-- Witness for C3: query 500 is beyond `max_end = 400` and is a hard
error; query 90 precedes all indexed data and is a non-fatal gap. -/
theorem cfg_get_timestamps_error_shapes_witness :
    (cfgEx.cfg_time.max_end < 500 ∧
      cfg_get_timestamps cfgEx 500 = .error .OutOfRange) ∧
    (90 ≤ cfgEx.cfg_time.max_end ∧ inGap cfgEx 90 = true ∧
      ∃ ct urls, cfg_get_timestamps cfgEx 90 = .ok (ct, urls) ∧
        ct.current_gap = true ∧ ct.current_roa_timestamp = 0) :=
  ⟨⟨by decide, (cfg_get_timestamps_error_shapes cfgEx 500).1 (by decide)⟩,
    ⟨by decide, by decide,
      (cfg_get_timestamps_error_shapes cfgEx 90).2 (by decide) (by decide)⟩⟩

/-- Witness for C10 at `cfgEx` and query 150: the resolved snapshot is 100
and its URL `a` is written to `dest`. -/
theorem cfg_get_timestamps_writes_urls_witness :
    (cfg_get_timestamps cfgEx 150 =
        .ok (⟨100, 200, 100, 400, false⟩, ['a']) ∧
      (⟨100, 200, 100, 400, false⟩ : config_time_t).current_gap = false) ∧
    ∃ e ∈ cfgEx.broker_khash,
      e.1 = (⟨100, 200, 100, 400, false⟩ : config_time_t).current_roa_timestamp ∧
      e.2 = ['a'] :=
  ⟨⟨by rfl, by decide⟩,
    cfg_get_timestamps_writes_urls cfgEx 150 ⟨100, 200, 100, 400, false⟩ ['a']
      (by rfl) (by decide)⟩

/-! ## Historical iteration via `cfg_next_timestamp` -/

theorem filter_gt_sorted {pre suf : List Nat} {t : Nat}
    (h : List.Pairwise (· < ·) (pre ++ t :: suf)) :
    (pre ++ t :: suf).filter (fun k => decide (t < k)) = suf := by
  obtain ⟨hpre, hts, hcross⟩ := List.pairwise_append.mp h
  obtain ⟨hsuf_gt, hsuf⟩ := List.pairwise_cons.mp hts
  rw [List.filter_append, List.filter_cons]
  have h1 : pre.filter (fun k => decide (t < k)) = [] := by
    rw [List.filter_eq_nil_iff]
    intro a ha
    simp only [decide_eq_true_eq]
    exact Nat.not_lt.mpr (Nat.le_of_lt (hcross a ha t (List.mem_cons_self t suf)))
  have h2 : ¬ (decide (t < t) = true) := by simp
  rw [h1, if_neg h2, List.nil_append]
  rw [List.filter_eq_self]
  intro a ha
  simpa using hsuf_gt a ha

theorem min?_getD_sorted {suf : List Nat}
    (h : List.Pairwise (· < ·) suf) : suf.min?.getD 0 = headOrZero suf := by
  cases suf with
  | nil => rfl
  | cons b rest =>
    have hb : (b :: rest).min? = some b := by
      rw [List.min?_eq_some_iff']
      refine ⟨List.mem_cons_self b rest, ?_⟩
      intro x hx
      rcases List.mem_cons.mp hx with hx | hx
      · exact hx ▸ Nat.le_refl b
      · exact Nat.le_of_lt ((List.pairwise_cons.mp h).1 x hx)
    rw [hb]
    rfl

theorem cfg_ts_iter_suffix (cfg : rpki_cfg_t) :
    ∀ suf pre, keysOf cfg.broker_khash = pre ++ suf →
    List.Pairwise (· < ·) (keysOf cfg.broker_khash) →
    (∀ k ∈ keysOf cfg.broker_khash, 0 < k) →
    cfg_ts_iter cfg suf.length (headOrZero suf) = suf := by
  intro suf
  induction suf with
  | nil => intro pre hk hs hp; rfl
  | cons t suf' ih =>
    intro pre hk hs hp
    have ht : t ∈ keysOf cfg.broker_khash := by
      rw [hk]
      exact List.mem_append_right pre (List.mem_cons_self t suf')
    have ht0 : t ≠ 0 := Nat.pos_iff_ne_zero.mp (hp t ht)
    have hsplit : List.Pairwise (· < ·) (pre ++ t :: suf') := hk ▸ hs
    have hsuf' : List.Pairwise (· < ·) suf' :=
      (List.pairwise_cons.mp (List.pairwise_append.mp hsplit).2.1).2
    have hnext : cfg_next_timestamp cfg t = headOrZero suf' := by
      rw [cfg_next_timestamp, findNext, hk, filter_gt_sorted hsplit]
      exact min?_getD_sorted hsuf'
    show cfg_ts_iter cfg (suf'.length + 1) t = t :: suf'
    rw [cfg_ts_iter, if_neg ht0, hnext]
    have hk' : keysOf cfg.broker_khash = (pre ++ [t]) ++ suf' := by
      rw [hk, List.append_assoc, List.singleton_append]
    rw [ih (pre ++ [t]) hk' hs hp]

/-- C2: for every indexed timestamp, `cfg_next_timestamp` returns the
smallest indexed timestamp strictly greater than it, returning the `0`
sentinel exactly on the last indexed timestamp; iterating it from `start`
visits every indexed timestamp exactly once in strictly increasing order
(the iteration reproduces the sorted key list itself). -/
theorem cfg_next_timestamp_iterates_index (cfg : rpki_cfg_t)
    (hsorted : List.Pairwise (· < ·) (keysOf cfg.broker_khash))
    (hpos : ∀ k ∈ keysOf cfg.broker_khash, 0 < k)
    (hstart : cfg.cfg_time.start = headOrZero (keysOf cfg.broker_khash)) :
    (∀ cur ∈ keysOf cfg.broker_khash,
      (cfg_next_timestamp cfg cur = 0 ↔ ∀ u ∈ keysOf cfg.broker_khash, u ≤ cur)) ∧
    (∀ cur ∈ keysOf cfg.broker_khash, cfg_next_timestamp cfg cur ≠ 0 →
      cfg_next_timestamp cfg cur ∈ keysOf cfg.broker_khash ∧
      cur < cfg_next_timestamp cfg cur ∧
      ∀ u ∈ keysOf cfg.broker_khash, cur < u → cfg_next_timestamp cfg cur ≤ u) ∧
    cfg_ts_iter cfg (keysOf cfg.broker_khash).length cfg.cfg_time.start =
      keysOf cfg.broker_khash := by
  refine ⟨?_, ?_, ?_⟩
  · intro cur hcur
    constructor
    · intro h0 u hu
      by_contra hcu
      obtain ⟨tn, hfn, htnk, hctn, hmin⟩ :=
        findNext_of_mem hu (Nat.not_le.mp hcu)
      rw [cfg_next_timestamp, hfn] at h0
      exact Nat.pos_iff_ne_zero.mp (hpos tn htnk) h0
    · intro hall
      rw [cfg_next_timestamp, findNext]
      have hempty : (keysOf cfg.broker_khash).filter
          (fun k => decide (cur < k)) = [] := by
        rw [List.filter_eq_nil_iff]
        intro a ha
        simp only [decide_eq_true_eq]
        exact Nat.not_lt.mpr (hall a ha)
      rw [hempty]
      rfl
  · intro cur hcur hne
    cases hfn : findNext cfg.broker_khash cur with
    | none =>
      rw [cfg_next_timestamp, hfn] at hne
      exact absurd rfl hne
    | some tn =>
      have hchar := hfn
      rw [findNext, List.min?_eq_some_iff'] at hchar
      obtain ⟨hmem, hmin⟩ := hchar
      simp only [List.mem_filter, decide_eq_true_eq] at hmem hmin
      have hval : cfg_next_timestamp cfg cur = tn := by
        rw [cfg_next_timestamp, hfn]
        rfl
      rw [hval]
      exact ⟨hmem.1, hmem.2, fun u hu hcu => hmin u ⟨hu, hcu⟩⟩
  · rw [hstart]
    exact cfg_ts_iter_suffix cfg (keysOf cfg.broker_khash) [] rfl hsorted hpos

/-- Witness for C2 at `cfgEx`: the index holds 100, 200, 300 and the
iteration from `start = 100` visits exactly 100, 200, 300. -/
theorem cfg_next_timestamp_iterates_index_witness :
    (List.Pairwise (· < ·) (keysOf cfgEx.broker_khash) ∧
      (∀ k ∈ keysOf cfgEx.broker_khash, 0 < k) ∧
      cfgEx.cfg_time.start = headOrZero (keysOf cfgEx.broker_khash)) ∧
    cfg_ts_iter cfgEx (keysOf cfgEx.broker_khash).length cfgEx.cfg_time.start =
      keysOf cfgEx.broker_khash :=
  ⟨⟨by decide, by decide, by decide⟩,
    (cfg_next_timestamp_iterates_index cfgEx (by decide) (by decide)
      (by decide)).2.2⟩

/-! ## Spec Parser (spec sections 4.1 and 3) -/

/-- Delimiter characters of the `project:(collector,...)` specification
syntax; they cannot occur inside an identifier (a spec whose identifier
would contain one is malformed, which also keeps every re-serialized
broker request string well-formed, spec section 4.1). -/
def specDelims : List Char := [';', ':', ',', '(', ')']

/-- Valid identifier character: anything but a delimiter. -/
def validIdentChar (c : Char) : Bool :=
  decide (c ∉ specDelims)

/-- Identifier validity: nonempty and delimiter-free. -/
def identOk (s : List Char) : Bool :=
  !s.isEmpty && s.all validIdentChar

/-- Modelled from the spec: parsing of one `ID:(*|C1,C2,...)` clause of the
`projectsCollectors` string (spec section 4.1; the parser implementation,
`rpki_config.c`, is not in the repository). A missing `:` delimiter, empty
identifier, unbalanced parentheses or delimiter characters inside an
identifier are `MalformedSpec`; a wildcard body `*` is kept as the single
sentinel collector. -/
def parseClauseRaw (clause : List Char) :
    Except CfgError (List Char × List (List Char)) :=
  match clause.span (fun c => decide (c ≠ ':')) with
  | (_, []) => .error .MalformedSpec
  | (id, _ :: r) =>
    if identOk id then
      match r with
      | [] => .error .MalformedSpec
      | c0 :: tl =>
        if c0 = '(' then
          if tl.getLast? = some ')' then
            if tl.dropLast = ['*'] then
              .ok (id, [['*']])
            else if (splitOnChar ',' tl.dropLast).all identOk then
              .ok (id, splitOnChar ',' tl.dropLast)
            else
              .error .MalformedSpec
          else
            .error .MalformedSpec
        else
          .error .MalformedSpec
    else
      .error .MalformedSpec

/-- Parse every `;`-separated clause, failing on the first malformed one. -/
def parseClauses : List (List Char) →
    Except CfgError (List (List Char × List (List Char)))
  | [] => .ok []
  | c :: cs =>
    match parseClauseRaw c with
    | .error e => .error e
    | .ok p =>
      match parseClauses cs with
      | .error e => .error e
      | .ok ps => .ok (p :: ps)

/-- Structural parse of the whole `projectsCollectors` string. -/
def parseSpecRaw (s : List Char) :
    Except CfgError (List (List Char × List (List Char))) :=
  parseClauses (splitOnChar ';' s)

/-- Project list of the parsed clauses (one entry per clause). -/
def clauseProjects (cls : List (List Char × List (List Char))) :
    List (List Char) :=
  cls.map Prod.fst

/-- Collector list of the parsed clauses (all clauses concatenated). -/
def clauseCollectors (cls : List (List Char × List (List Char))) :
    List (List Char) :=
  (cls.map Prod.snd).flatten

/-- Capacity limits of the configuration input (`MAX_RPKI_COUNT`,
`MAX_INPUT_LENGTH`, `MAX_TIME_WINDOWS` of `constants.h`, which is not in
the repository; spec section 9 recommends treating them as explicit
configurable maxima, so they are passed as parameters). -/
structure Limits where
  maxRpkiCount : Nat
  maxInputLength : Nat
  maxTimeWindows : Nat
deriving DecidableEq, Repr

/-- Modelled from the spec: the projects/collectors half of `cfg_create`
(spec section 4.1): structural parse, then capacity validation — exceeding
a bound is a hard `CapacityExceeded` failure, never silent truncation. -/
def cfg_create_pc (lims : Limits) (s : List Char) :
    Except CfgError (List (List Char) × List (List Char)) :=
  match parseSpecRaw s with
  | .error e => .error e
  | .ok cls =>
    if lims.maxRpkiCount < (clauseProjects cls).length ∨
       lims.maxRpkiCount < (clauseCollectors cls).length ∨
       (∃ i ∈ clauseProjects cls, lims.maxInputLength < i.length) ∨
       (∃ i ∈ clauseCollectors cls, lims.maxInputLength < i.length) then
      .error .CapacityExceeded
    else
      .ok (clauseProjects cls, clauseCollectors cls)

/-- Parse each `,`-separated token of the interval string as a number;
`none` as soon as one token is non-numeric. -/
def parseNatList : List (List Char) → Option (List Nat)
  | [] => some []
  | t :: ts =>
    match digitsToNat? t, parseNatList ts with
    | some n, some ns => some (n :: ns)
    | _, _ => none

/-- Each consecutive pair of the flat timestamp list is ordered. -/
def pairsOrdered : List Nat → Bool
  | a :: b :: rest => decide (a ≤ b) && pairsOrdered rest
  | _ => true

/-- Modelled from the spec: the `timeIntervals` half of `cfg_create` (spec
section 4.1): split on `,`; `MalformedSpec` if a token is non-numeric or
the count is odd; `CapacityExceeded` past `MAX_TIME_WINDOWS`;
`InvalidInterval` if a pair has start > end; otherwise the parsed
timestamps are stored exactly as given. -/
def cfg_parse_intervals (maxWindows : Nat) (s : List Char) :
    Except CfgError (List Nat) :=
  match parseNatList (splitOnChar ',' s) with
  | none => .error .MalformedSpec
  | some ns =>
    if ns.length % 2 = 1 then
      .error .MalformedSpec
    else if maxWindows < ns.length then
      .error .CapacityExceeded
    else if pairsOrdered ns then
      .ok ns
    else
      .error .InvalidInterval

/-- Decimal rendering of a natural number (fuel-based). -/
def natToCharsAux : Nat → Nat → List Char
  | 0, _ => []
  | fuel + 1, n =>
    if n < 10 then [Char.ofNat (48 + n)]
    else natToCharsAux fuel (n / 10) ++ [Char.ofNat (48 + n % 10)]

/-- Decimal rendering of a natural number. -/
def natToChars (n : Nat) : List Char :=
  natToCharsAux (n + 1) n

/-- Normalized configuration input (`config_input_t` of `rpki_config.h`
lines 41-116): parsed project/collector/interval collections plus the
broker-request strings re-serialized from them. -/
structure config_input_t where
  mode : Bool
  unified : Bool
  projects : List (List Char)
  broker_projects : List Char
  collectors : List (List Char)
  broker_collectors : List Char
  intervals : List Nat
  broker_intervals : List Char
deriving DecidableEq, Repr

/-- Modelled from the spec: `cfg_create` (declared in `rpki_config.h` lines
170-183; definition not in the repository). Parses both specification
strings, validates them, and populates the broker request strings by
re-serializing the normalized lists, never by echoing raw input. -/
def cfg_create (lims : Limits) (projects_collectors time_intervals : List Char)
    (unified mode : Bool) : Except CfgError config_input_t :=
  match cfg_create_pc lims projects_collectors with
  | .error e => .error e
  | .ok (ps, cs) =>
    match cfg_parse_intervals lims.maxTimeWindows time_intervals with
    | .error e => .error e
    | .ok ns =>
      .ok { mode := mode
            unified := unified
            projects := ps
            broker_projects := joinWithChar ',' ps
            collectors := cs
            broker_collectors := joinWithChar ',' cs
            intervals := ns
            broker_intervals := joinWithChar ',' (ns.map natToChars) }

/-! ## Spec Parser invariants -/

theorem identOk_spec {x : List Char} (h : identOk x = true) :
    x ≠ [] ∧ ∀ d ∈ specDelims, d ∉ x := by
  rw [identOk, Bool.and_eq_true] at h
  obtain ⟨h1, h2⟩ := h
  constructor
  · intro he
    subst he
    simp at h1
  · intro d hd hdx
    have hv := List.all_eq_true.mp h2 d hdx
    rw [validIdentChar] at hv
    exact of_decide_eq_true hv hd

theorem parseClauseRaw_ok {c id : List Char} {cols : List (List Char)}
    (h : parseClauseRaw c = .ok (id, cols)) :
    identOk id = true ∧ cols ≠ [] ∧ ∀ col ∈ cols, identOk col = true := by
  rw [parseClauseRaw] at h
  split at h
  · exact Except.noConfusion h
  · split at h
    case isFalse => exact Except.noConfusion h
    case isTrue hident =>
      split at h
      · exact Except.noConfusion h
      · split at h
        case isFalse => exact Except.noConfusion h
        case isTrue =>
          split at h
          case isFalse => exact Except.noConfusion h
          case isTrue =>
            split at h
            case isTrue =>
              simp only [Except.ok.injEq, Prod.mk.injEq] at h
              obtain ⟨hid, hcols⟩ := h
              subst hid
              subst hcols
              exact ⟨hident, by simp, by
                intro col hcol
                simp only [List.mem_singleton] at hcol
                subst hcol
                decide⟩
            case isFalse =>
              split at h
              case isTrue hall =>
                simp only [Except.ok.injEq, Prod.mk.injEq] at h
                obtain ⟨hid, hcols⟩ := h
                subst hid
                subst hcols
                exact ⟨hident, splitOnChar_ne_nil _ _,
                  fun col hcol => List.all_eq_true.mp hall col hcol⟩
              case isFalse => exact Except.noConfusion h

theorem parseClauses_ok :
    ∀ {toks : List (List Char)} {cls : List (List Char × List (List Char))},
    parseClauses toks = .ok cls →
    cls.length = toks.length ∧
    ∀ pc ∈ cls, identOk pc.1 = true ∧ pc.2 ≠ [] ∧
      ∀ col ∈ pc.2, identOk col = true := by
  intro toks
  induction toks with
  | nil =>
    intro cls h
    rw [parseClauses] at h
    simp only [Except.ok.injEq] at h
    subst h
    exact ⟨rfl, by simp⟩
  | cons c cs ih =>
    intro cls h
    rw [parseClauses] at h
    split at h
    · exact Except.noConfusion h
    · next p hp =>
      split at h
      · exact Except.noConfusion h
      · next ps hps =>
        simp only [Except.ok.injEq] at h
        subst h
        obtain ⟨hlen, hall⟩ := ih hps
        refine ⟨by simp [hlen], ?_⟩
        intro pc hpc
        rcases List.mem_cons.mp hpc with hpc | hpc
        · subst hpc
          obtain ⟨p1, p2⟩ := pc
          exact parseClauseRaw_ok hp
        · exact hall pc hpc

theorem cfg_create_pc_ok {lims : Limits} {s : List Char}
    {ps cs : List (List Char)}
    (h : cfg_create_pc lims s = .ok (ps, cs)) :
    ∃ cls, parseSpecRaw s = .ok cls ∧
      ps = clauseProjects cls ∧ cs = clauseCollectors cls ∧
      ps ≠ [] ∧ cs ≠ [] ∧
      (∀ p ∈ ps, identOk p = true) ∧ (∀ c ∈ cs, identOk c = true) ∧
      ps.length ≤ lims.maxRpkiCount ∧ cs.length ≤ lims.maxRpkiCount ∧
      (∀ p ∈ ps, p.length ≤ lims.maxInputLength) ∧
      (∀ c ∈ cs, c.length ≤ lims.maxInputLength) := by
  rw [cfg_create_pc] at h
  split at h
  · exact Except.noConfusion h
  · next cls heq =>
    split at h
    · exact Except.noConfusion h
    · next hcap =>
      push_neg at hcap
      obtain ⟨hc1, hc2, hc3, hc4⟩ := hcap
      simp only [Except.ok.injEq, Prod.mk.injEq] at h
      obtain ⟨hps, hcs⟩ := h
      subst hps
      subst hcs
      obtain ⟨hlen, hall⟩ := parseClauses_ok heq
      have hclsne : cls ≠ [] := by
        intro he
        subst he
        exact splitOnChar_ne_nil ';' s (by simpa using hlen.symm)
      have hpmem : ∀ p ∈ clauseProjects cls, identOk p = true := by
        intro p hp
        rw [clauseProjects] at hp
        obtain ⟨pc, hpc, hfst⟩ := List.mem_map.mp hp
        exact hfst ▸ (hall pc hpc).1
      have hcmem : ∀ c ∈ clauseCollectors cls, identOk c = true := by
        intro c hc
        rw [clauseCollectors] at hc
        obtain ⟨l, hl, hcl⟩ := List.mem_flatten.mp hc
        obtain ⟨pc, hpc, hsnd⟩ := List.mem_map.mp hl
        exact (hall pc hpc).2.2 c (hsnd ▸ hcl)
      refine ⟨cls, heq, rfl, rfl, ?_, ?_, hpmem, hcmem,
        hc1, hc2, hc3, hc4⟩
      · rw [clauseProjects]
        simpa using hclsne
      · rw [clauseCollectors]
        rw [Ne, List.flatten_eq_nil_iff]
        intro hallnil
        obtain ⟨pc, hpc⟩ := List.exists_mem_of_ne_nil cls hclsne
        exact (hall pc hpc).2.1 (hallnil pc.2 (List.mem_map_of_mem Prod.snd hpc))

/-! ## Unfolding helpers for `cfg_create` -/

theorem cfg_create_of_pc_err {lims : Limits} {pcs : List Char} {e : CfgError}
    (hpc : cfg_create_pc lims pcs = .error e) (tis : List Char) (u m : Bool) :
    cfg_create lims pcs tis u m = .error e := by
  rw [cfg_create, hpc]

theorem cfg_create_of_iv_err {lims : Limits} {pcs tis : List Char}
    {ps cs : List (List Char)} {e : CfgError}
    (hpc : cfg_create_pc lims pcs = .ok (ps, cs))
    (hiv : cfg_parse_intervals lims.maxTimeWindows tis = .error e)
    (u m : Bool) :
    cfg_create lims pcs tis u m = .error e := by
  rw [cfg_create, hpc, hiv]

theorem cfg_create_of_iv_ok {lims : Limits} {pcs tis : List Char}
    {ps cs : List (List Char)} {ns : List Nat}
    (hpc : cfg_create_pc lims pcs = .ok (ps, cs))
    (hiv : cfg_parse_intervals lims.maxTimeWindows tis = .ok ns)
    (u m : Bool) :
    cfg_create lims pcs tis u m =
      .ok { mode := m
            unified := u
            projects := ps
            broker_projects := joinWithChar ',' ps
            collectors := cs
            broker_collectors := joinWithChar ',' cs
            intervals := ns
            broker_intervals := joinWithChar ',' (ns.map natToChars) } := by
  rw [cfg_create, hpc, hiv]

theorem cfg_parse_intervals_of_none {mw : Nat} {s : List Char}
    (h : parseNatList (splitOnChar ',' s) = none) :
    cfg_parse_intervals mw s = .error .MalformedSpec := by
  rw [cfg_parse_intervals, h]

theorem cfg_parse_intervals_of_some {mw : Nat} {s : List Char} {ns : List Nat}
    (h : parseNatList (splitOnChar ',' s) = some ns) :
    cfg_parse_intervals mw s =
      if ns.length % 2 = 1 then .error .MalformedSpec
      else if mw < ns.length then .error .CapacityExceeded
      else if pairsOrdered ns then .ok ns
      else .error .InvalidInterval := by
  rw [cfg_parse_intervals, h]

theorem cfg_parse_intervals_ok {mw : Nat} {s : List Char} {ns : List Nat}
    (h : cfg_parse_intervals mw s = .ok ns) :
    parseNatList (splitOnChar ',' s) = some ns ∧ ns.length % 2 = 0 ∧
    ns.length ≤ mw ∧ pairsOrdered ns = true := by
  rw [cfg_parse_intervals] at h
  split at h
  · exact Except.noConfusion h
  · next ns' hns' =>
    split at h
    case isTrue => exact Except.noConfusion h
    case isFalse hodd =>
      split at h
      case isTrue => exact Except.noConfusion h
      case isFalse hcap =>
        split at h
        case isTrue hord =>
          simp only [Except.ok.injEq] at h
          subst h
          exact ⟨hns', by omega, Nat.not_lt.mp hcap, hord⟩
        case isFalse => exact Except.noConfusion h

theorem pairsOrdered_getD {ns : List Nat} (h : pairsOrdered ns = true) :
    ∀ i, 2 * i + 1 < ns.length → ns.getD (2 * i) 0 ≤ ns.getD (2 * i + 1) 0 := by
  intro i
  induction i generalizing ns with
  | zero =>
    intro hlt
    match ns, h, hlt with
    | a :: b :: rest, h, _ =>
      have hab : a ≤ b ∧ pairsOrdered rest = true := by
        simpa [pairsOrdered, Bool.and_eq_true] using h
      simpa using hab.1
  | succ i ih =>
    intro hlt
    match ns, h, hlt with
    | a :: b :: rest, h, hlt =>
      have hab : a ≤ b ∧ pairsOrdered rest = true := by
        simpa [pairsOrdered, Bool.and_eq_true] using h
      have h' := hab.2
      have hlt' : 2 * i + 1 < rest.length := by
        simp only [List.length_cons] at hlt
        omega
      have hrec := ih h' hlt'
      have e1 : 2 * (i + 1) = 2 * i + 1 + 1 := by omega
      rw [e1]
      simpa using hrec

/-- C4: for every specification accepted by `cfg_create`, re-serializing
the normalized project and collector lists into the broker request strings
and re-parsing those strings yields back exactly the same normalized
lists (parse/serialize round trip). -/
theorem cfg_create_broker_roundtrip (lims : Limits) (pcs tis : List Char)
    (u m : Bool) (cfgi : config_input_t)
    (h : cfg_create lims pcs tis u m = .ok cfgi) :
    splitOnChar ',' cfgi.broker_projects = cfgi.projects ∧
    splitOnChar ',' cfgi.broker_collectors = cfgi.collectors := by
  cases hpcv : cfg_create_pc lims pcs with
  | error e =>
    rw [cfg_create_of_pc_err hpcv tis u m] at h
    exact Except.noConfusion h
  | ok pr =>
    obtain ⟨ps, cs⟩ := pr
    cases hiv : cfg_parse_intervals lims.maxTimeWindows tis with
    | error e =>
      rw [cfg_create_of_iv_err hpcv hiv u m] at h
      exact Except.noConfusion h
    | ok ns =>
      rw [cfg_create_of_iv_ok hpcv hiv u m] at h
      simp only [Except.ok.injEq] at h
      subst h
      obtain ⟨cls, h1, h2, h3, hpne, hcne, hpok, hcok, h8, h9, h10, h11⟩ :=
        cfg_create_pc_ok hpcv
      constructor
      · exact splitOnChar_joinWithChar hpne
          (fun p hp => (identOk_spec (hpok p hp)).2 ',' (by decide))
      · exact splitOnChar_joinWithChar hcne
          (fun c hc => (identOk_spec (hcok c hc)).2 ',' (by decide))

/-- Witness for C4: the spec `PJ1:(CC1,CC2);PJ2:(*)` with intervals
`100,200` is accepted and both broker strings re-parse to the normalized
lists. -/
theorem cfg_create_broker_roundtrip_witness :
    (cfg_create ⟨8, 64, 16⟩ ("PJ1:(CC1,CC2);PJ2:(*)".toList)
        ("100,200".toList) false true =
      .ok { mode := true
            unified := false
            projects := ["PJ1".toList, "PJ2".toList]
            broker_projects := "PJ1,PJ2".toList
            collectors := ["CC1".toList, "CC2".toList, ['*']]
            broker_collectors := "CC1,CC2,*".toList
            intervals := [100, 200]
            broker_intervals := "100,200".toList }) ∧
    (splitOnChar ',' ("PJ1,PJ2".toList) = ["PJ1".toList, "PJ2".toList] ∧
     splitOnChar ',' ("CC1,CC2,*".toList) =
       ["CC1".toList, "CC2".toList, ['*']]) :=
  ⟨by rfl,
    cfg_create_broker_roundtrip ⟨8, 64, 16⟩ ("PJ1:(CC1,CC2);PJ2:(*)".toList)
      ("100,200".toList) false true
      { mode := true
        unified := false
        projects := ["PJ1".toList, "PJ2".toList]
        broker_projects := "PJ1,PJ2".toList
        collectors := ["CC1".toList, "CC2".toList, ['*']]
        broker_collectors := "CC1,CC2,*".toList
        intervals := [100, 200]
        broker_intervals := "100,200".toList } (by rfl)⟩

/-- C5: `cfg_create` (with a valid projects part) either rejects the
interval string — `MalformedSpec` when a token is non-numeric or the count
is odd, `InvalidInterval` when a pair has start > end — or yields a
configuration whose interval count is even, whose consecutive pairs are
ordered, and whose stored intervals are exactly the parsed input, never a
repaired variant. -/
theorem cfg_create_validates_intervals (lims : Limits) (pcs tis : List Char)
    (u m : Bool) (pr : List (List Char) × List (List Char))
    (hpc : cfg_create_pc lims pcs = .ok pr) :
    (∀ cfgi, cfg_create lims pcs tis u m = .ok cfgi →
      cfgi.intervals.length % 2 = 0 ∧
      (∀ i, 2 * i + 1 < cfgi.intervals.length →
        cfgi.intervals.getD (2 * i) 0 ≤ cfgi.intervals.getD (2 * i + 1) 0) ∧
      parseNatList (splitOnChar ',' tis) = some cfgi.intervals) ∧
    (parseNatList (splitOnChar ',' tis) = none →
      cfg_create lims pcs tis u m = .error .MalformedSpec) ∧
    (∀ ns, parseNatList (splitOnChar ',' tis) = some ns →
      ns.length % 2 = 1 →
      cfg_create lims pcs tis u m = .error .MalformedSpec) ∧
    (∀ ns, parseNatList (splitOnChar ',' tis) = some ns →
      ns.length % 2 = 0 → ns.length ≤ lims.maxTimeWindows →
      pairsOrdered ns = false →
      cfg_create lims pcs tis u m = .error .InvalidInterval) := by
  obtain ⟨ps, cs⟩ := pr
  refine ⟨?_, ?_, ?_, ?_⟩
  · intro cfgi hok
    cases hiv : cfg_parse_intervals lims.maxTimeWindows tis with
    | error e =>
      rw [cfg_create_of_iv_err hpc hiv u m] at hok
      exact Except.noConfusion hok
    | ok ns =>
      rw [cfg_create_of_iv_ok hpc hiv u m] at hok
      simp only [Except.ok.injEq] at hok
      subst hok
      obtain ⟨hpn, heven, hle, hord⟩ := cfg_parse_intervals_ok hiv
      exact ⟨heven, fun i hi => pairsOrdered_getD hord i hi, hpn⟩
  · intro hnone
    exact cfg_create_of_iv_err hpc (cfg_parse_intervals_of_none hnone) u m
  · intro ns hns hodd
    have hiv : cfg_parse_intervals lims.maxTimeWindows tis =
        .error .MalformedSpec := by
      rw [cfg_parse_intervals_of_some hns, if_pos hodd]
    exact cfg_create_of_iv_err hpc hiv u m
  · intro ns hns heven hle hord
    have hiv : cfg_parse_intervals lims.maxTimeWindows tis =
        .error .InvalidInterval := by
      rw [cfg_parse_intervals_of_some hns, if_neg (by omega),
        if_neg (Nat.not_lt.mpr hle), if_neg (by rw [hord]; exact Bool.false_ne_true)]
    exact cfg_create_of_iv_err hpc hiv u m

/-- Witness for C5: the interval string `300,200` (start > end) is rejected
with `InvalidInterval`. -/
theorem cfg_create_validates_intervals_witness :
    (cfg_create_pc ⟨8, 64, 16⟩ ("PJ1:(CC1)".toList) =
        .ok (["PJ1".toList], ["CC1".toList]) ∧
      parseNatList (splitOnChar ',' ("300,200".toList)) = some [300, 200] ∧
      [300, 200].length % 2 = 0 ∧ [300, 200].length ≤ 16 ∧
      pairsOrdered [300, 200] = false) ∧
    cfg_create ⟨8, 64, 16⟩ ("PJ1:(CC1)".toList) ("300,200".toList)
      false true = .error .InvalidInterval :=
  ⟨⟨by rfl, by rfl, by decide, by decide, by decide⟩,
    (cfg_create_validates_intervals ⟨8, 64, 16⟩ ("PJ1:(CC1)".toList)
        ("300,200".toList) false true
        (["PJ1".toList], ["CC1".toList]) (by rfl)).2.2.2
      [300, 200] (by rfl) (by decide) (by decide) (by decide)⟩

/-- C9: exceeding a capacity bound — too many projects or collectors, or an
over-long identifier — makes `cfg_create` fail hard with
`CapacityExceeded`; any accepted configuration carries the full parsed
lists within bounds, never a truncated variant. -/
theorem cfg_create_capacity_hard_failure (lims : Limits) (pcs tis : List Char)
    (u m : Bool) (cls : List (List Char × List (List Char)))
    (hraw : parseSpecRaw pcs = .ok cls) :
    ((lims.maxRpkiCount < (clauseProjects cls).length ∨
      lims.maxRpkiCount < (clauseCollectors cls).length ∨
      (∃ i ∈ clauseProjects cls, lims.maxInputLength < i.length) ∨
      (∃ i ∈ clauseCollectors cls, lims.maxInputLength < i.length)) →
      cfg_create lims pcs tis u m = .error .CapacityExceeded) ∧
    (∀ cfgi, cfg_create lims pcs tis u m = .ok cfgi →
      cfgi.projects = clauseProjects cls ∧
      cfgi.collectors = clauseCollectors cls ∧
      cfgi.projects.length ≤ lims.maxRpkiCount ∧
      cfgi.collectors.length ≤ lims.maxRpkiCount ∧
      (∀ i ∈ cfgi.projects, i.length ≤ lims.maxInputLength) ∧
      (∀ i ∈ cfgi.collectors, i.length ≤ lims.maxInputLength)) := by
  constructor
  · intro hexceed
    have hpc : cfg_create_pc lims pcs = .error .CapacityExceeded := by
      rw [cfg_create_pc, hraw]
      show (if lims.maxRpkiCount < (clauseProjects cls).length ∨
          lims.maxRpkiCount < (clauseCollectors cls).length ∨
          (∃ i ∈ clauseProjects cls, lims.maxInputLength < i.length) ∨
          (∃ i ∈ clauseCollectors cls, lims.maxInputLength < i.length) then
            (.error .CapacityExceeded :
              Except CfgError (List (List Char) × List (List Char)))
          else .ok (clauseProjects cls, clauseCollectors cls)) =
        .error .CapacityExceeded
      rw [if_pos hexceed]
    exact cfg_create_of_pc_err hpc tis u m
  · intro cfgi hok
    cases hpcv : cfg_create_pc lims pcs with
    | error e =>
      rw [cfg_create_of_pc_err hpcv tis u m] at hok
      exact Except.noConfusion hok
    | ok pr =>
      obtain ⟨ps, cs⟩ := pr
      obtain ⟨cls', hraw', hps, hcs, hpne, hcne, hpok, hcok, hb1, hb2, hb3, hb4⟩ :=
        cfg_create_pc_ok hpcv
      have hcls : cls' = cls := by
        rw [hraw] at hraw'
        exact (Except.ok.inj hraw').symm
      subst hcls
      cases hiv : cfg_parse_intervals lims.maxTimeWindows tis with
      | error e =>
        rw [cfg_create_of_iv_err hpcv hiv u m] at hok
        exact Except.noConfusion hok
      | ok ns =>
        rw [cfg_create_of_iv_ok hpcv hiv u m] at hok
        simp only [Except.ok.injEq] at hok
        subst hok
        exact ⟨hps, hcs, hb1, hb2, hb3, hb4⟩

/-- Witness for C9: two collectors exceed the capacity bound 1 and the
whole creation fails with `CapacityExceeded`. -/
theorem cfg_create_capacity_hard_failure_witness :
    (parseSpecRaw ("PJ1:(CC1,CC2)".toList) =
        .ok [("PJ1".toList, ["CC1".toList, "CC2".toList])] ∧
      (1 : Nat) <
        (clauseCollectors [("PJ1".toList, ["CC1".toList, "CC2".toList])]).length) ∧
    cfg_create ⟨1, 64, 16⟩ ("PJ1:(CC1,CC2)".toList) ("100,200".toList)
      false true = .error .CapacityExceeded :=
  ⟨⟨by rfl, by decide⟩,
    (cfg_create_capacity_hard_failure ⟨1, 64, 16⟩ ("PJ1:(CC1,CC2)".toList)
        ("100,200".toList) false true
        [("PJ1".toList, ["CC1".toList, "CC2".toList])] (by rfl)).1
      (Or.inr (Or.inl (by decide)))⟩

/-! ## Prefix Table Builder (spec section 4.4) -/

/-- Hexadecimal digit test. -/
def isHexDigitCh (c : Char) : Bool :=
  c.isDigit || ('a' ≤ c && c ≤ 'f') || ('A' ≤ c && c ≤ 'F')

/-- Value of a hexadecimal digit. -/
def hexVal (c : Char) : Nat :=
  if c.isDigit then c.toNat - 48
  else if 'a' ≤ c && c ≤ 'f' then c.toNat - 87
  else c.toNat - 55

/-- One dotted-decimal IPv4 octet: one to three digits, value at most 255. -/
def parseOctet (t : List Char) : Option Nat :=
  match digitsToNat? t with
  | none => none
  | some n => if t.length ≤ 3 ∧ n ≤ 255 then some n else none

/-- Parse every octet token or fail. -/
def parseOctets : List (List Char) → Option (List Nat)
  | [] => some []
  | t :: ts =>
    match parseOctet t, parseOctets ts with
    | some n, some ns => some (n :: ns)
    | _, _ => none

/-- Dotted-quad IPv4 address text. -/
def parseIPv4 (s : List Char) : Option (List Nat) :=
  match parseOctets (splitOnChar '.' s) with
  | some os => if os.length = 4 then some os else none
  | none => none

/-- One IPv6 group: one to four hexadecimal digits. -/
def parseHexGroup (t : List Char) : Option Nat :=
  if t ≠ [] ∧ t.length ≤ 4 ∧ t.all isHexDigitCh then
    some (t.foldl (fun a c => a * 16 + hexVal c) 0)
  else none

/-- Parse every group token or fail. -/
def parseGroups : List (List Char) → Option (List Nat)
  | [] => some []
  | t :: ts =>
    match parseHexGroup t, parseGroups ts with
    | some n, some ns => some (n :: ns)
    | _, _ => none

/-- Split at the first `::`, when present. -/
def splitOnDoubleColon : List Char → Option (List Char × List Char)
  | [] => none
  | [_] => none
  | ':' :: ':' :: rest => some ([], rest)
  | c :: rest =>
    match splitOnDoubleColon rest with
    | none => none
    | some (a, b) => some (c :: a, b)

/-- Colon-separated IPv6 address text: eight groups, or fewer with a single
`::` zero-compression filling the remainder. -/
def parseIPv6 (s : List Char) : Option (List Nat) :=
  match splitOnDoubleColon s with
  | none =>
    match parseGroups (splitOnChar ':' s) with
    | some gs => if gs.length = 8 then some gs else none
    | none => none
  | some (l, r) =>
    match (if l.isEmpty then some [] else parseGroups (splitOnChar ':' l)),
        (if r.isEmpty then some [] else parseGroups (splitOnChar ':' r)) with
    | some gl, some gr =>
      if gl.length + gr.length ≤ 7 then
        some (gl ++ List.replicate (8 - gl.length - gr.length) 0 ++ gr)
      else none
    | _, _ => none

/-- Parsed IP address with family. -/
inductive IpAddr where
  | v4 : List Nat → IpAddr
  | v6 : List Nat → IpAddr
deriving DecidableEq, Repr

/-- Maximum mask length of the address family: 32 for IPv4, 128 for IPv6. -/
def familyMaxBits : IpAddr → Nat
  | .v4 _ => 32
  | .v6 _ => 128

/-- Modelled from the spec: address-text parsing with the family inferred
from syntax (spec section 4.4; the C implementation delegates to the
system/RTRlib parsers, which are not in the repository): a colon selects
IPv6, otherwise IPv4. -/
def parseIp (s : List Char) : Option IpAddr :=
  if s.contains ':' then (parseIPv6 s).map IpAddr.v6
  else (parseIPv4 s).map IpAddr.v4

/-- A typed ROA prefix record (spec section 3, PrefixRecord). -/
structure PrefixRecord where
  asn : Nat
  ip : IpAddr
  min_len : Nat
  max_len : Nat
deriving DecidableEq, Repr

/-- Modelled from the spec: the externally owned prefix table, as the set
of records inserted so far; duplicate insertion must not create a second
decision path, so insertion is set-like. -/
def pfxTableInsert (r : PrefixRecord) (t : List PrefixRecord) :
    List PrefixRecord :=
  if r ∈ t then t else r :: t

/-- Number of entries of the table matching a record exactly (same ASN,
prefix and length bounds). -/
def countRecord (r : PrefixRecord) (t : List PrefixRecord) : Nat :=
  t.countP (fun x => decide (x = r))

/-- Modelled from the spec: `cfg_add_record_to_pfx_table` (declared in
`rpki_config.h` lines 228-238; definition not in the repository): parse the
address (`InvalidAddress` on failure), validate
`min_len ≤ max_len ≤ familyMaxBits` (`InvalidLength` otherwise), then
insert the record idempotently. -/
def cfg_add_record_to_pfx_table (asn : Nat) (address : List Char)
    (min_len max_len : Nat) (pfxt : List PrefixRecord) :
    Except CfgError (List PrefixRecord) :=
  match parseIp address with
  | none => .error .InvalidAddress
  | some ip =>
    if min_len ≤ max_len ∧ max_len ≤ familyMaxBits ip then
      .ok (pfxTableInsert ⟨asn, ip, min_len, max_len⟩ pfxt)
    else
      .error .InvalidLength

theorem cfg_add_eq_none {asn : Nat} {address : List Char}
    {mn mx : Nat} {pfxt : List PrefixRecord}
    (h : parseIp address = none) :
    cfg_add_record_to_pfx_table asn address mn mx pfxt =
      .error .InvalidAddress := by
  rw [cfg_add_record_to_pfx_table, h]

theorem cfg_add_eq_some {asn : Nat} {address : List Char}
    {mn mx : Nat} {pfxt : List PrefixRecord} {ip : IpAddr}
    (h : parseIp address = some ip) :
    cfg_add_record_to_pfx_table asn address mn mx pfxt =
      if mn ≤ mx ∧ mx ≤ familyMaxBits ip then
        .ok (pfxTableInsert ⟨asn, ip, mn, mx⟩ pfxt)
      else
        .error .InvalidLength := by
  rw [cfg_add_record_to_pfx_table, h]

theorem mem_pfxTableInsert_self (r : PrefixRecord) (t : List PrefixRecord) :
    r ∈ pfxTableInsert r t := by
  rw [pfxTableInsert]
  by_cases h : r ∈ t
  · rw [if_pos h]
    exact h
  · rw [if_neg h]
    exact List.mem_cons_self r t

theorem pfxTableInsert_of_mem {r : PrefixRecord} {t : List PrefixRecord}
    (h : r ∈ t) : pfxTableInsert r t = t := by
  rw [pfxTableInsert, if_pos h]

theorem countRecord_pfxTableInsert (r : PrefixRecord) (t : List PrefixRecord)
    (h : countRecord r t ≤ 1) :
    countRecord r (pfxTableInsert r t) = 1 := by
  rw [pfxTableInsert]
  by_cases hm : r ∈ t
  · rw [if_pos hm]
    have hpos : 0 < countRecord r t :=
      List.countP_pos_iff.mpr ⟨r, hm, by simp⟩
    omega
  · have hz : List.countP (fun x => decide (x = r)) t = 0 :=
      List.countP_eq_zero.mpr (fun a ha => by
        simp only [decide_eq_true_eq]
        intro he
        exact hm (he ▸ ha))
    rw [if_neg hm, countRecord, List.countP_cons]
    simp [hz]

/-- C8: `cfg_add_record_to_pfx_table` fails with `InvalidAddress` when the
address text parses as neither IPv4 nor IPv6, fails with `InvalidLength`
when `min_len ≤ max_len ≤ familyMaxBits` does not hold, and otherwise
inserts a record satisfying the PrefixRecord invariant. -/
theorem cfg_add_record_validates (asn : Nat) (address : List Char)
    (min_len max_len : Nat) (pfxt : List PrefixRecord) :
    (parseIp address = none →
      cfg_add_record_to_pfx_table asn address min_len max_len pfxt =
        .error .InvalidAddress) ∧
    (∀ ip, parseIp address = some ip →
      ¬ (min_len ≤ max_len ∧ max_len ≤ familyMaxBits ip) →
      cfg_add_record_to_pfx_table asn address min_len max_len pfxt =
        .error .InvalidLength) ∧
    (∀ ip, parseIp address = some ip →
      min_len ≤ max_len → max_len ≤ familyMaxBits ip →
      ∃ t', cfg_add_record_to_pfx_table asn address min_len max_len pfxt =
          .ok t' ∧
        (⟨asn, ip, min_len, max_len⟩ : PrefixRecord) ∈ t' ∧
        (∀ r ∈ t', r ∈ pfxt ∨
          (r.min_len ≤ r.max_len ∧ r.max_len ≤ familyMaxBits r.ip))) := by
  refine ⟨?_, ?_, ?_⟩
  · intro h
    exact cfg_add_eq_none h
  · intro ip hip hbad
    rw [cfg_add_eq_some hip, if_neg hbad]
  · intro ip hip h1 h2
    refine ⟨pfxTableInsert ⟨asn, ip, min_len, max_len⟩ pfxt, ?_, ?_, ?_⟩
    · rw [cfg_add_eq_some hip, if_pos ⟨h1, h2⟩]
    · exact mem_pfxTableInsert_self _ _
    · intro r hr
      rw [pfxTableInsert] at hr
      by_cases hm : (⟨asn, ip, min_len, max_len⟩ : PrefixRecord) ∈ pfxt
      · rw [if_pos hm] at hr
        exact Or.inl hr
      · rw [if_neg hm] at hr
        rcases List.mem_cons.mp hr with hr | hr
        · subst hr
          exact Or.inr ⟨h1, h2⟩
        · exact Or.inl hr

/-- Witness for C8: `10.0.0.0` with bounds 8 ≤ 24 ≤ 32 is inserted; the
unparseable text `xyz` gives `InvalidAddress`; bounds 33 > 32 give
`InvalidLength`. -/
theorem cfg_add_record_validates_witness :
    (parseIp ("xyz".toList) = none ∧
      cfg_add_record_to_pfx_table 65000 ("xyz".toList) 8 24 [] =
        .error .InvalidAddress) ∧
    (parseIp ("10.0.0.0".toList) = some (.v4 [10, 0, 0, 0]) ∧
      ¬ ((33 : Nat) ≤ 33 ∧ (33 : Nat) ≤ familyMaxBits (.v4 [10, 0, 0, 0])) ∧
      cfg_add_record_to_pfx_table 65000 ("10.0.0.0".toList) 33 33 [] =
        .error .InvalidLength) ∧
    (∃ t', cfg_add_record_to_pfx_table 65000 ("10.0.0.0".toList) 8 24 [] =
        .ok t' ∧
      (⟨65000, .v4 [10, 0, 0, 0], 8, 24⟩ : PrefixRecord) ∈ t' ∧
      (∀ r ∈ t', r ∈ ([] : List PrefixRecord) ∨
        (r.min_len ≤ r.max_len ∧ r.max_len ≤ familyMaxBits r.ip))) :=
  ⟨⟨by rfl, (cfg_add_record_validates 65000 ("xyz".toList) 8 24 []).1 (by rfl)⟩,
    ⟨by rfl, by decide,
      (cfg_add_record_validates 65000 ("10.0.0.0".toList) 33 33 []).2.1
        (.v4 [10, 0, 0, 0]) (by rfl) (by decide)⟩,
    (cfg_add_record_validates 65000 ("10.0.0.0".toList) 8 24 []).2.2
      (.v4 [10, 0, 0, 0]) (by rfl) (by decide) (by decide)⟩

/-- C7: inserting the same record twice with identical arguments leaves the
table unchanged after the second call, with exactly one entry matching that
ASN, prefix and length bounds. -/
theorem cfg_add_record_idempotent (asn : Nat) (address : List Char)
    (min_len max_len : Nat) (pfxt t1 : List PrefixRecord)
    (h : cfg_add_record_to_pfx_table asn address min_len max_len pfxt =
      .ok t1) :
    cfg_add_record_to_pfx_table asn address min_len max_len t1 = .ok t1 ∧
    ∀ ip, parseIp address = some ip →
      countRecord ⟨asn, ip, min_len, max_len⟩ pfxt ≤ 1 →
      countRecord ⟨asn, ip, min_len, max_len⟩ t1 = 1 := by
  cases hip : parseIp address with
  | none =>
    rw [cfg_add_eq_none hip] at h
    exact Except.noConfusion h
  | some ip =>
    rw [cfg_add_eq_some hip] at h
    by_cases hlen : min_len ≤ max_len ∧ max_len ≤ familyMaxBits ip
    · rw [if_pos hlen] at h
      simp only [Except.ok.injEq] at h
      subst h
      constructor
      · rw [cfg_add_eq_some hip, if_pos hlen,
          pfxTableInsert_of_mem (mem_pfxTableInsert_self _ _)]
      · intro ip' hip' hc
        have hipeq : ip' = ip := (Option.some.inj hip').symm
        subst hipeq
        exact countRecord_pfxTableInsert _ _ hc
    · rw [if_neg hlen] at h
      exact Except.noConfusion h

/-- Witness for C7 at a fresh table: inserting `(65000, 10.0.0.0, 8, 24)`
twice leaves one matching entry. -/
theorem cfg_add_record_idempotent_witness :
    (cfg_add_record_to_pfx_table 65000 ("10.0.0.0".toList) 8 24 [] =
        .ok [⟨65000, .v4 [10, 0, 0, 0], 8, 24⟩] ∧
      parseIp ("10.0.0.0".toList) = some (.v4 [10, 0, 0, 0]) ∧
      countRecord ⟨65000, .v4 [10, 0, 0, 0], 8, 24⟩ [] ≤ 1) ∧
    (cfg_add_record_to_pfx_table 65000 ("10.0.0.0".toList) 8 24
        [⟨65000, .v4 [10, 0, 0, 0], 8, 24⟩] =
      .ok [⟨65000, .v4 [10, 0, 0, 0], 8, 24⟩] ∧
      countRecord ⟨65000, .v4 [10, 0, 0, 0], 8, 24⟩
        [⟨65000, .v4 [10, 0, 0, 0], 8, 24⟩] = 1) :=
  ⟨⟨by rfl, by rfl, by decide⟩,
    ⟨(cfg_add_record_idempotent 65000 ("10.0.0.0".toList) 8 24 []
        [⟨65000, .v4 [10, 0, 0, 0], 8, 24⟩] (by rfl)).1,
      (cfg_add_record_idempotent 65000 ("10.0.0.0".toList) 8 24 []
        [⟨65000, .v4 [10, 0, 0, 0], 8, 24⟩] (by rfl)).2
        (.v4 [10, 0, 0, 0]) (by rfl) (by decide)⟩⟩

/-! ## ROA Importer (spec section 4.3) -/

/-- Modelled from the spec: parsing of one ROA file line (spec sections 4.3
and 6: "line-oriented records, each yielding (asn, prefix-with-length,
maxLength)"; fields are comma-separated, the prefix carries its length
after a slash, extra metadata fields are ignored). -/
def parseRoaLine (line : List Char) :
    Option (Nat × List Char × Nat × Nat) :=
  match splitOnChar ',' line with
  | f0 :: f1 :: f2 :: _ =>
    match digitsToNat? f0 with
    | none => none
    | some asn =>
      match f1.span (fun c => decide (c ≠ '/')) with
      | (_, []) => none
      | (addr, _ :: lenChars) =>
        match digitsToNat? lenChars, digitsToNat? f2 with
        | some mn, some mx => some (asn, addr, mn, mx)
        | _, _ => none
  | _ => none

/-- A line is well-formed when it parses and its record passes the
record-level validation of the Prefix Table Builder. -/
def lineGood (line : List Char) : Bool :=
  match parseRoaLine line with
  | none => false
  | some (_, addr, mn, mx) =>
    match parseIp addr with
    | none => false
    | some ip => decide (mn ≤ mx ∧ mx ≤ familyMaxBits ip)

/-- State of one file import: target table, inserted count, dropped count. -/
structure ImportState where
  table : List PrefixRecord
  inserted : Nat
  dropped : Nat
deriving DecidableEq, Repr

/-- Process one line: a malformed line or a record-level failure is recorded
as a drop and skipped; a valid record is added to the table. -/
def importLine (st : ImportState) (line : List Char) : ImportState :=
  match parseRoaLine line with
  | none => { st with dropped := st.dropped + 1 }
  | some (asn, addr, mn, mx) =>
    match cfg_add_record_to_pfx_table asn addr mn mx st.table with
    | .error _ => { st with dropped := st.dropped + 1 }
    | .ok t => { table := t, inserted := st.inserted + 1, dropped := st.dropped }

/-- Table effect of one well-formed line. -/
def insertGoodLine (t : List PrefixRecord) (line : List Char) :
    List PrefixRecord :=
  match parseRoaLine line with
  | none => t
  | some (asn, addr, mn, mx) =>
    match parseIp addr with
    | none => t
    | some ip => pfxTableInsert ⟨asn, ip, mn, mx⟩ t

/-- Modelled from the spec: `cfg_import_roa_file` (declared in
`rpki_config.h` lines 220-226; definition not in the repository). The file
is `none` when missing or unreadable (a file-level `ExternalFailure`);
otherwise every line is processed, per-line failures are recorded and
skipped, and the import fails only when zero valid records were found. -/
def cfg_import_roa_file (roa_file : Option (List (List Char)))
    (pfxt : List PrefixRecord) : Except CfgError ImportState :=
  match roa_file with
  | none => .error .ExternalFailure
  | some lines =>
    let st := List.foldl importLine ⟨pfxt, 0, 0⟩ lines
    if st.inserted = 0 then .error .ExternalFailure else .ok st

theorem importLine_good {st : ImportState} {line : List Char}
    (h : lineGood line = true) :
    importLine st line =
      { table := insertGoodLine st.table line
        inserted := st.inserted + 1
        dropped := st.dropped } := by
  cases hp : parseRoaLine line with
  | none => simp [lineGood, hp] at h
  | some quad =>
    obtain ⟨asn, addr, mn, mx⟩ := quad
    cases hip : parseIp addr with
    | none => simp [lineGood, hp, hip] at h
    | some ip =>
      simp only [lineGood, hp, hip, decide_eq_true_eq] at h
      have hadd : cfg_add_record_to_pfx_table asn addr mn mx st.table =
          .ok (pfxTableInsert ⟨asn, ip, mn, mx⟩ st.table) := by
        rw [cfg_add_eq_some hip, if_pos h]
      simp [importLine, hp, hadd, insertGoodLine, hip]

theorem importLine_bad {st : ImportState} {line : List Char}
    (h : lineGood line = false) :
    importLine st line = { st with dropped := st.dropped + 1 } := by
  cases hp : parseRoaLine line with
  | none => simp [importLine, hp]
  | some quad =>
    obtain ⟨asn, addr, mn, mx⟩ := quad
    cases hip : parseIp addr with
    | none =>
      have hadd : cfg_add_record_to_pfx_table asn addr mn mx st.table =
          .error .InvalidAddress := cfg_add_eq_none hip
      simp [importLine, hp, hadd]
    | some ip =>
      have hlen : ¬ (mn ≤ mx ∧ mx ≤ familyMaxBits ip) := by
        simp only [lineGood, hp, hip, decide_eq_false_iff_not] at h
        exact h
      have hadd : cfg_add_record_to_pfx_table asn addr mn mx st.table =
          .error .InvalidLength := by
        rw [cfg_add_eq_some hip, if_neg hlen]
      simp [importLine, hp, hadd]

theorem import_foldl (lines : List (List Char)) :
    ∀ st : ImportState,
    (List.foldl importLine st lines).table =
        List.foldl insertGoodLine st.table (lines.filter lineGood) ∧
    (List.foldl importLine st lines).inserted =
        st.inserted + lines.countP lineGood ∧
    (List.foldl importLine st lines).dropped =
        st.dropped + (lines.length - lines.countP lineGood) := by
  induction lines with
  | nil => intro st; simp
  | cons l ls ih =>
    intro st
    have hcle : ls.countP lineGood ≤ ls.length :=
      List.countP_le_length lineGood
    by_cases hg : lineGood l = true
    · rw [List.foldl_cons, importLine_good hg]
      obtain ⟨ht, hi, hd⟩ := ih { table := insertGoodLine st.table l
                                  inserted := st.inserted + 1
                                  dropped := st.dropped }
      refine ⟨?_, ?_, ?_⟩
      · rw [ht]
        simp [List.filter_cons, hg]
      · rw [hi]
        simp [List.countP_cons, hg]
        omega
      · rw [hd]
        simp [List.countP_cons, hg]
    · have hg' : lineGood l = false := by simpa using hg
      rw [List.foldl_cons, importLine_bad hg']
      obtain ⟨ht, hi, hd⟩ := ih { st with dropped := st.dropped + 1 }
      refine ⟨?_, ?_, ?_⟩
      · rw [ht]
        simp [List.filter_cons, hg']
      · rw [hi]
        simp [List.countP_cons, hg']
      · rw [hd]
        simp [List.countP_cons, hg']
        omega

/-- C6: importing a file inserts exactly the well-formed records, records
and skips each malformed line, and succeeds; it fails only on file-level
errors — a missing/unreadable file or a file with zero valid records. -/
theorem cfg_import_partial_failure_tolerance (roa_lines : List (List Char))
    (pfxt : List PrefixRecord) :
    cfg_import_roa_file none pfxt = .error .ExternalFailure ∧
    (roa_lines.countP lineGood = 0 →
      cfg_import_roa_file (some roa_lines) pfxt = .error .ExternalFailure) ∧
    (0 < roa_lines.countP lineGood →
      cfg_import_roa_file (some roa_lines) pfxt =
        .ok { table := List.foldl insertGoodLine pfxt (roa_lines.filter lineGood)
              inserted := roa_lines.countP lineGood
              dropped := roa_lines.length - roa_lines.countP lineGood }) := by
  obtain ⟨ht, hi, hd⟩ := import_foldl roa_lines (⟨pfxt, 0, 0⟩ : ImportState)
  refine ⟨rfl, ?_, ?_⟩
  · intro h0
    have hz : (List.foldl importLine (⟨pfxt, 0, 0⟩ : ImportState)
        roa_lines).inserted = 0 := by
      rw [hi]
      simpa using h0
    show (if (List.foldl importLine (⟨pfxt, 0, 0⟩ : ImportState)
          roa_lines).inserted = 0 then
        (.error .ExternalFailure : Except CfgError ImportState)
      else .ok (List.foldl importLine (⟨pfxt, 0, 0⟩ : ImportState) roa_lines)) =
      .error .ExternalFailure
    rw [if_pos hz]
  · intro hpos
    have hne : ¬ (List.foldl importLine (⟨pfxt, 0, 0⟩ : ImportState)
        roa_lines).inserted = 0 := by
      have h0 : (⟨pfxt, 0, 0⟩ : ImportState).inserted = 0 := rfl
      rw [hi, h0]
      omega
    show (if (List.foldl importLine (⟨pfxt, 0, 0⟩ : ImportState)
          roa_lines).inserted = 0 then
        (.error .ExternalFailure : Except CfgError ImportState)
      else .ok (List.foldl importLine (⟨pfxt, 0, 0⟩ : ImportState) roa_lines)) =
      .ok { table := List.foldl insertGoodLine pfxt (roa_lines.filter lineGood)
            inserted := roa_lines.countP lineGood
            dropped := roa_lines.length - roa_lines.countP lineGood }
    rw [if_neg hne]
    have he : List.foldl importLine (⟨pfxt, 0, 0⟩ : ImportState) roa_lines =
        (⟨(List.foldl importLine (⟨pfxt, 0, 0⟩ : ImportState) roa_lines).table,
          (List.foldl importLine (⟨pfxt, 0, 0⟩ : ImportState) roa_lines).inserted,
          (List.foldl importLine (⟨pfxt, 0, 0⟩ : ImportState) roa_lines).dropped⟩ :
          ImportState) := rfl
    rw [he, ht, hi, hd]
    simp

/-- Witness for C6: a file with one valid record line and one garbage line
imports with one insertion and one recorded drop. -/
theorem cfg_import_partial_failure_tolerance_witness :
    (0 <
      (["65000,10.0.0.0/8,24".toList, "garbage".toList].countP lineGood)) ∧
    cfg_import_roa_file
        (some ["65000,10.0.0.0/8,24".toList, "garbage".toList]) [] =
      .ok { table := List.foldl insertGoodLine []
              (["65000,10.0.0.0/8,24".toList, "garbage".toList].filter lineGood)
            inserted :=
              ["65000,10.0.0.0/8,24".toList, "garbage".toList].countP lineGood
            dropped :=
              ["65000,10.0.0.0/8,24".toList, "garbage".toList].length -
                ["65000,10.0.0.0/8,24".toList, "garbage".toList].countP
                  lineGood } :=
  ⟨by decide,
    (cfg_import_partial_failure_tolerance
        ["65000,10.0.0.0/8,24".toList, "garbage".toList] []).2.2 (by decide)⟩
